import Mathlib

/-!
Shallow embedding of src/packages/core/admin/admin/src/hooks/useRBAC.ts.

The hook normalizes its first argument (an array of permissions, or the
deprecated mapping of group names to permission arrays), derives a camel-cased
action name from each permission's dot-delimited action string, runs the
external check in an effect (tracking loading, error and result state), and
merges an all-false default map of derived action names with the check's
result, prefixing every key with can.

Strings are embedded as Lean String; the JavaScript split on a one-character
separator is embedded as splitOnChar on the underlying character list, which
matches JS semantics exactly for single-character separators (splitting the
empty string yields one empty segment, a separator-free string yields itself
as the single segment).
-/

/-- Modelled from the spec: the Permission record comes from ../features/Auth,
which is not part of the provided source. The spec calls it "an opaque record
supplied by the external collaborator; the only field this logic touches is a
dot-delimited action string". -/
structure Permission where
  action : String
deriving DecidableEq, Repr

/-- Modelled from the spec: capitalise comes from ../utils/strings, which is
not part of the provided source. The spec says "capitalize each part's first
letter", so the first character is uppercased and the rest kept. This is the
character-list form. -/
def capitaliseChars : List Char → List Char
  | [] => []
  | c :: cs => c.toUpper :: cs

/-- Modelled from the spec: string form of capitaliseChars. -/
def capitalise (s : String) : String := ⟨capitaliseChars s.data⟩

/-- JS String.prototype.split with a one-character separator, on character
lists: splitAux sep rest acc processes rest with acc the (reversed) current
segment. -/
def splitAux (sep : Char) : List Char → List Char → List (List Char)
  | [], acc => [acc.reverse]
  | c :: cs, acc =>
    if c = sep then acc.reverse :: splitAux sep cs []
    else splitAux sep cs (c :: acc)

/-- JS s.split(sep) for a one-character separator sep. -/
def splitOnChar (s : List Char) (sep : Char) : List (List Char) :=
  splitAux sep s []

/-- Embeds getActionName: split the action on dots, take the last segment
(slice(-1) with destructuring default empty string), split it on hyphens,
capitalise each part and join. -/
def getActionName (p : Permission) : String :=
  let segs := splitOnChar p.action.data '.'
  let action := (segs.getLast?).getD []
  ⟨((splitOnChar action '-').map capitaliseChars).flatten⟩

/-- The spec's words for the derived action name, stated independently of the
source: "split on `.`, take the last segment; split that segment on `-`;
capitalize each part's first letter; concatenate". -/
def derivedActionNameSpec (p : Permission) : String :=
  let lastSegment := ((splitOnChar p.action.data '.').getLast?).getD []
  let parts := splitOnChar lastSegment '-'
  ⟨(parts.map capitaliseChars).flatten⟩

/-- AllowedActions is a JS object from action-name strings to booleans; embedded
as an insertion-ordered association list with unique keys. -/
abbrev AllowedActions := List (String × Bool)

/-- JS object key assignment acc[k] = v (and the spread form): if the key is
present its value is updated in place, otherwise the entry is appended. -/
def insertAssoc : AllowedActions → String → Bool → AllowedActions
  | [], k, v => [(k, v)]
  | (k0, v0) :: rest, k, v =>
    if k0 = k then (k0, v) :: rest
    else (k0, v0) :: insertAssoc rest k v

/-- JS object property read m[k]. -/
def lookupAssoc (k : String) : AllowedActions → Option Bool
  | [] => none
  | (k0, v0) :: rest => if k0 = k then some v0 else lookupAssoc k rest

/-- The key list of an embedded JS object, in insertion order. -/
def keysOf (m : AllowedActions) : List String := m.map Prod.fst

/-- Embeds defaultAllowedActions: reduce over the permissions to check, making
an all-false entry per derived action name. -/
def defaultAllowedActions (perms : List Permission) : AllowedActions :=
  perms.foldl (fun acc p => insertAssoc acc (getActionName p) false) []

/-- Embeds the success-branch reduce in the effect: the resolved permission
list becomes an all-true map keyed by derived action name. -/
def dataOfResult (res : List Permission) : AllowedActions :=
  res.foldl (fun acc p => insertAssoc acc (getActionName p) true) []

/-- Embeds the object spread of b over a. -/
def spreadAssoc (a b : AllowedActions) : AllowedActions :=
  b.foldl (fun acc kv => insertAssoc acc kv.1 kv.2) a

/-- The output key built from a derived action name. -/
def canName (name : String) : String := "can" ++ capitalise name

/-- The output key of a permission. -/
def canKey (p : Permission) : String := canName (getActionName p)

/-- Embeds the Object.entries(...).reduce that renames every key k of the
merged map to can + capitalise k. -/
def canFold (m : AllowedActions) : AllowedActions :=
  m.foldl (fun acc kv => insertAssoc acc (canName kv.1) kv.2) []

/-- Embeds the allowedActions value returned by the hook: spread the resolved
data (when present) over the all-false default, then prefix the keys. -/
def allowedActionsOf (perms : List Permission) (data : Option AllowedActions) :
    AllowedActions :=
  canFold (spreadAssoc (defaultAllowedActions perms) (data.getD []))

/-- The first argument of useRBAC: an array of permissions, or the deprecated
mapping of group names to permission arrays (embedded as an ordered list of
pairs, preserving JS object iteration order). -/
inductive PermissionsInput where
  | arr (ps : List Permission)
  | obj (groups : List (String × List Permission))
deriving DecidableEq, Repr

/-- Embeds actualPermissionsToCheck: an array is passed through, the deprecated
object form is flattened with Object.values(...).flat(). -/
def actualPermissionsToCheck : PermissionsInput → List Permission
  | .arr ps => ps
  | .obj groups => (groups.map Prod.snd).flatten

/-- The hook's render-scoped state: the three useState cells isLoading
(initially true), error (initially undefined) and data (initially undefined).
The rejection value is opaque to the hook; it is embedded as a string. -/
structure HookState where
  isLoading : Bool
  error : Option String
  data : Option AllowedActions
deriving DecidableEq, Repr

/-- The state on first render: isLoading true, no error, no data. -/
def initialState : HookState :=
  { isLoading := true, error := none, data := none }

/-- Embeds the effect body when the trigger condition fires (permissions
deep-changed or debounced locale changed): setIsLoading(true),
setData(undefined), setError(undefined), then the check is started. -/
def triggerCheck (_s : HookState) : HookState :=
  { isLoading := true, error := none, data := none }

/-- Embeds the then/finally branches: when the promise resolves with res, a
non-undefined res is reduced to an all-true map and stored, an undefined res
leaves data untouched; finally clears isLoading. -/
def resolveCheck (s : HookState) (res : Option (List Permission)) : HookState :=
  let s1 :=
    match res with
    | some r => { s with data := some (dataOfResult r) }
    | none => s
  { s1 with isLoading := false }

/-- Embeds the catch/finally branches: when the promise rejects with e, the
error is stored and finally clears isLoading. -/
def rejectCheck (s : HookState) (e : String) : HookState :=
  { s with error := some e, isLoading := false }

/-- The value returned by useRBAC. -/
structure RBACResult where
  allowedActions : AllowedActions
  isLoading : Bool
  error : Option String
  permissions : List Permission
deriving DecidableEq, Repr

/-- Embeds the hook's return value as a function of the input, the external
auth-loading flag, and the render-scoped state: allowedActions merges the
default map with the data, permissions is the normalized input, and the
reported isLoading is the state's flag or the auth flag. -/
def useRBACResult (input : PermissionsInput) (isLoadingAuth : Bool)
    (s : HookState) : RBACResult :=
  let perms := actualPermissionsToCheck input
  { allowedActions := allowedActionsOf perms s.data
    permissions := perms
    isLoading := s.isLoading || isLoadingAuth
    error := s.error }

/-- Modelled from the spec: the once wrapper comes from ../utils/once, which
is not part of the provided source. The spec calls it "a generic run-once
wrapper used for deduplicating a warning": the wrapped function runs at most
once per wrapper instance. In the source each hook instance builds its own
wrapper with React.useMemo(() => once(console.warn), []), whose empty
dependency list makes the wrapper live for that component instance's
lifetime. The process state is therefore the set of hook-instance identifiers
whose wrapper has already fired. -/
structure WarnState where
  fired : List Nat
deriving DecidableEq, Repr

/-- One render of hook instance inst with the given input: the deprecated
object form invokes the instance's warnOnce, which emits a warning only if
that instance's wrapper has not fired yet; the array form does not invoke it.
Returns the new process state and the number of warnings emitted (0 or 1). -/
def renderWarnCount (s : WarnState) (inst : Nat) (input : PermissionsInput) :
    WarnState × Nat :=
  match input with
  | .arr _ => (s, 0)
  | .obj _ =>
    if inst ∈ s.fired then (s, 0)
    else ({ fired := inst :: s.fired }, 1)

/-- Total warnings emitted over a sequence of renders, each identified by a
hook instance and its input. -/
def traceWarnings : WarnState → List (Nat × PermissionsInput) → Nat
  | _, [] => 0
  | s, (inst, input) :: rest =>
    let step := renderWarnCount s inst input
    step.2 + traceWarnings step.1 rest

example : getActionName ⟨"admin::roles.create"⟩ = "Create" := by decide
example : getActionName ⟨"admin::roles.create-draft"⟩ = "CreateDraft" := by decide
example : getActionName ⟨"foo"⟩ = "Foo" := by decide
example : getActionName ⟨""⟩ = "" := by decide
example : keysOf (allowedActionsOf [⟨"admin::roles.create"⟩] none) = ["canCreate"] := by decide

/-! Character-level facts: uppercasing is idempotent, so a derived action name
(whose first character is already uppercased) is a fixed point of capitalise. -/

theorem char_eq_of_toNat_eq {a b : Char} (h : a.toNat = b.toNat) : a = b :=
  Char.ext (UInt32.toNat.inj h)

theorem toNat_ofNat_valid {n : Nat} (h : n.isValidChar) :
    (Char.ofNat n).toNat = n := by
  rw [Char.ofNat, dif_pos h]
  rfl

theorem toUpper_toNat (c : Char) :
    c.toUpper.toNat =
      if c.toNat ≥ 97 ∧ c.toNat ≤ 122 then c.toNat - 32 else c.toNat := by
  simp only [Char.toUpper]
  by_cases h : c.toNat ≥ 97 ∧ c.toNat ≤ 122
  · rw [if_pos h, if_pos h]
    exact toNat_ofNat_valid (Or.inl (by omega))
  · rw [if_neg h, if_neg h]

theorem toUpper_toUpper (c : Char) : c.toUpper.toUpper = c.toUpper := by
  apply char_eq_of_toNat_eq
  have h1 := toUpper_toNat c
  have h2 := toUpper_toNat c.toUpper
  by_cases h : c.toNat ≥ 97 ∧ c.toNat ≤ 122
  · rw [if_pos h] at h1
    rw [h2, h1, if_neg (by omega)]
  · rw [if_neg h] at h1
    rw [h2, h1, if_neg h]

theorem capitaliseChars_flatten_map (parts : List (List Char)) :
    capitaliseChars ((parts.map capitaliseChars).flatten) =
      (parts.map capitaliseChars).flatten := by
  induction parts with
  | nil => rfl
  | cons p ps ih =>
    cases p with
    | nil => simpa [capitaliseChars] using ih
    | cons c cs => simp [capitaliseChars, toUpper_toUpper]

theorem capitalise_getActionName (p : Permission) :
    capitalise (getActionName p) = getActionName p := by
  unfold getActionName capitalise
  exact congrArg String.mk (capitaliseChars_flatten_map _)

theorem string_append_cancel {a b c : String} (h : a ++ b = a ++ c) : b = c := by
  apply String.ext
  have h2 := congrArg String.data h
  rw [String.data_append, String.data_append] at h2
  exact List.append_cancel_left h2

theorem canName_inj {a b : String} (ha : capitalise a = a)
    (hb : capitalise b = b) (h : canName a = canName b) : a = b := by
  unfold canName at h
  rw [ha, hb] at h
  exact string_append_cancel h

/-! Facts about the embedded JS split. -/

theorem splitAux_not_mem (sep : Char) (cs : List Char) (h : sep ∉ cs) :
    ∀ acc, splitAux sep cs acc = [acc.reverse ++ cs] := by
  induction cs with
  | nil => intro acc; simp [splitAux]
  | cons c cs ih =>
    intro acc
    have h1 : ¬ c = sep := fun hc => h (hc ▸ List.mem_cons_self c cs)
    have h2 : sep ∉ cs := fun hm => h (List.mem_cons_of_mem c hm)
    simp only [splitAux, if_neg h1]
    rw [ih h2]
    simp

theorem splitOnChar_not_mem (s : List Char) (sep : Char) (h : sep ∉ s) :
    splitOnChar s sep = [s] := by
  unfold splitOnChar
  rw [splitAux_not_mem sep s h]
  simp

/-! Facts about the embedded JS object operations. -/

theorem lookup_insert (m : AllowedActions) (k k1 : String) (v : Bool) :
    lookupAssoc k1 (insertAssoc m k v) =
      if k1 = k then some v else lookupAssoc k1 m := by
  induction m with
  | nil =>
    by_cases h : k1 = k
    · simp [insertAssoc, lookupAssoc, h]
    · simp [insertAssoc, lookupAssoc, h, Ne.symm h]
  | cons kv rest ih =>
    obtain ⟨k0, v0⟩ := kv
    by_cases hk : k0 = k
    · subst hk
      by_cases h1 : k1 = k0
      · simp [insertAssoc, lookupAssoc, h1]
      · simp [insertAssoc, lookupAssoc, h1, Ne.symm h1]
    · by_cases h1 : k0 = k1
      · have : ¬ k1 = k := fun hh => hk (h1.trans hh)
        simp [insertAssoc, lookupAssoc, hk, h1, this]
      · simp [insertAssoc, lookupAssoc, hk, h1, ih]

theorem lookup_eq_none_iff (k : String) (m : AllowedActions) :
    lookupAssoc k m = none ↔ k ∉ keysOf m := by
  induction m with
  | nil => simp [lookupAssoc, keysOf]
  | cons kv rest ih =>
    obtain ⟨k0, v0⟩ := kv
    by_cases h : k0 = k
    · simp [lookupAssoc, keysOf, h]
    · simp [lookupAssoc, keysOf, h, Ne.symm h, ih]

theorem mem_keys_iff_lookup (k : String) (m : AllowedActions) :
    k ∈ keysOf m ↔ ∃ v, lookupAssoc k m = some v := by
  rcases hv : lookupAssoc k m with _ | v
  · rw [lookup_eq_none_iff] at hv
    simp [hv]
  · have : k ∈ keysOf m := by
      by_contra hmem
      rw [← lookup_eq_none_iff] at hmem
      rw [hmem] at hv
      cases hv
    simp [this, hv]

theorem keys_insert (m : AllowedActions) (k : String) (v : Bool) :
    keysOf (insertAssoc m k v) =
      if k ∈ keysOf m then keysOf m else keysOf m ++ [k] := by
  induction m with
  | nil => simp [insertAssoc, keysOf]
  | cons kv rest ih =>
    obtain ⟨k0, v0⟩ := kv
    by_cases h : k0 = k
    · simp [insertAssoc, keysOf, h]
    · have hcons : keysOf ((k0, v0) :: rest) = k0 :: keysOf rest := rfl
      have hmem : k ∈ keysOf ((k0, v0) :: rest) ↔ k ∈ keysOf rest := by
        rw [hcons, List.mem_cons]
        exact or_iff_right (Ne.symm h)
      have hins : keysOf (insertAssoc ((k0, v0) :: rest) k v) =
          k0 :: keysOf (insertAssoc rest k v) := by
        simp [insertAssoc, h, keysOf]
      rw [hins, ih]
      by_cases h2 : k ∈ keysOf rest
      · rw [if_pos h2, if_pos (hmem.mpr h2), hcons]
      · rw [if_neg h2, if_neg (fun hh => h2 (hmem.mp hh)), hcons]
        rfl

theorem mem_keys_insert (m : AllowedActions) (k k1 : String) (v : Bool) :
    k1 ∈ keysOf (insertAssoc m k v) ↔ k1 = k ∨ k1 ∈ keysOf m := by
  rw [keys_insert]
  by_cases h : k ∈ keysOf m
  · rw [if_pos h]
    constructor
    · exact Or.inr
    · rintro (rfl | hm)
      · exact h
      · exact hm
  · rw [if_neg h]
    simp [or_comm]

theorem nodup_keys_insert (m : AllowedActions) (k : String) (v : Bool)
    (h : (keysOf m).Nodup) : (keysOf (insertAssoc m k v)).Nodup := by
  rw [keys_insert]
  by_cases hm : k ∈ keysOf m
  · rw [if_pos hm]
    exact h
  · rw [if_neg hm]
    simp [List.nodup_append, h, hm]

theorem insert_not_mem (m : AllowedActions) (k : String) (v : Bool)
    (h : k ∉ keysOf m) : insertAssoc m k v = m ++ [(k, v)] := by
  induction m with
  | nil => rfl
  | cons kv rest ih =>
    obtain ⟨k0, v0⟩ := kv
    have h0 : ¬ k0 = k := by
      intro hh
      exact h (by simp [keysOf, hh])
    have h1 : k ∉ keysOf rest := by
      intro hh
      exact h (by simp [keysOf] at hh ⊢; exact Or.inr hh)
    simp [insertAssoc, h0, ih h1]

theorem mem_val_insert (m : AllowedActions) (k : String) (v : Bool)
    (kv : String × Bool) (h : kv ∈ insertAssoc m k v) :
    kv.2 = v ∨ kv ∈ m := by
  induction m with
  | nil =>
    simp [insertAssoc] at h
    simp [h]
  | cons kv0 rest ih =>
    obtain ⟨k0, v0⟩ := kv0
    by_cases h0 : k0 = k
    · simp [insertAssoc, h0] at h
      rcases h with h | h
      · simp [h]
      · simp [h]
    · simp [insertAssoc, h0] at h
      rcases h with h | h
      · simp [h]
      · rcases ih h with h1 | h1
        · exact Or.inl h1
        · simp [h1]

theorem lookup_foldl_insert (f : Permission → String) (b : Bool)
    (l : List Permission) :
    ∀ (init : AllowedActions) (k : String),
      lookupAssoc k (l.foldl (fun acc p => insertAssoc acc (f p) b) init) =
        if k ∈ l.map f then some b else lookupAssoc k init := by
  induction l with
  | nil =>
    intro init k
    simp
  | cons p rest ih =>
    intro init k
    rw [List.foldl_cons, ih]
    by_cases h : k ∈ rest.map f
    · rw [if_pos h, if_pos (by simp [h])]
    · rw [if_neg h, lookup_insert]
      by_cases h2 : k = f p
      · rw [if_pos h2, if_pos (by simp [h2])]
      · rw [if_neg h2, if_neg (by simp [h, h2])]

theorem mem_keys_foldl_insert (f : Permission → String) (b : Bool)
    (l : List Permission) :
    ∀ (init : AllowedActions) (k : String),
      k ∈ keysOf (l.foldl (fun acc p => insertAssoc acc (f p) b) init) ↔
        k ∈ l.map f ∨ k ∈ keysOf init := by
  induction l with
  | nil =>
    intro init k
    simp
  | cons p rest ih =>
    intro init k
    rw [List.foldl_cons, ih, mem_keys_insert]
    simp only [List.map_cons, List.mem_cons]
    tauto

theorem nodup_keys_foldl_insert (f : Permission → String) (b : Bool)
    (l : List Permission) :
    ∀ init : AllowedActions, (keysOf init).Nodup →
      (keysOf (l.foldl (fun acc p => insertAssoc acc (f p) b) init)).Nodup := by
  induction l with
  | nil =>
    intro init h
    exact h
  | cons p rest ih =>
    intro init h
    rw [List.foldl_cons]
    exact ih _ (nodup_keys_insert _ _ _ h)

theorem mem_val_foldl_insert (f : Permission → String) (b : Bool)
    (l : List Permission) :
    ∀ (init : AllowedActions) (kv : String × Bool),
      kv ∈ l.foldl (fun acc p => insertAssoc acc (f p) b) init →
        kv.2 = b ∨ kv ∈ init := by
  induction l with
  | nil =>
    intro init kv h
    exact Or.inr h
  | cons p rest ih =>
    intro init kv h
    rw [List.foldl_cons] at h
    rcases ih _ kv h with h1 | h1
    · exact Or.inl h1
    · exact mem_val_insert _ _ _ _ h1

theorem lookup_default (perms : List Permission) (k : String) :
    lookupAssoc k (defaultAllowedActions perms) =
      if k ∈ perms.map getActionName then some false else none := by
  unfold defaultAllowedActions
  rw [lookup_foldl_insert]
  rfl

theorem lookup_dataOfResult (res : List Permission) (k : String) :
    lookupAssoc k (dataOfResult res) =
      if k ∈ res.map getActionName then some true else none := by
  unfold dataOfResult
  rw [lookup_foldl_insert]
  rfl

theorem mem_keys_default (perms : List Permission) (k : String) :
    k ∈ keysOf (defaultAllowedActions perms) ↔
      k ∈ perms.map getActionName := by
  unfold defaultAllowedActions
  rw [mem_keys_foldl_insert]
  simp [keysOf]

theorem mem_keys_dataOfResult (res : List Permission) (k : String) :
    k ∈ keysOf (dataOfResult res) ↔ k ∈ res.map getActionName := by
  unfold dataOfResult
  rw [mem_keys_foldl_insert]
  simp [keysOf]

theorem nodup_keys_default (perms : List Permission) :
    (keysOf (defaultAllowedActions perms)).Nodup := by
  unfold defaultAllowedActions
  exact nodup_keys_foldl_insert _ _ _ [] (by simp [keysOf])

theorem mem_val_default (perms : List Permission) (kv : String × Bool)
    (h : kv ∈ defaultAllowedActions perms) : kv.2 = false := by
  unfold defaultAllowedActions at h
  rcases mem_val_foldl_insert _ _ _ _ _ h with h1 | h1
  · exact h1
  · cases h1

theorem lookup_spread (b : AllowedActions) :
    ∀ (a : AllowedActions) (k : String), (keysOf b).Nodup →
      lookupAssoc k (spreadAssoc a b) =
        match lookupAssoc k b with
        | some v => some v
        | none => lookupAssoc k a := by
  induction b with
  | nil =>
    intro a k _
    rfl
  | cons kv rest ih =>
    intro a k hnd
    obtain ⟨k0, v0⟩ := kv
    have hnd2 : (keysOf rest).Nodup ∧ k0 ∉ keysOf rest := by
      have hc : keysOf ((k0, v0) :: rest) = k0 :: keysOf rest := rfl
      rw [hc, List.nodup_cons] at hnd
      exact ⟨hnd.2, hnd.1⟩
    have hstep : spreadAssoc a ((k0, v0) :: rest) =
        spreadAssoc (insertAssoc a k0 v0) rest := rfl
    rw [hstep, ih _ k hnd2.1]
    by_cases hk : k0 = k
    · subst hk
      have hnone : lookupAssoc k0 rest = none :=
        (lookup_eq_none_iff _ _).mpr hnd2.2
      rw [hnone]
      simp [lookup_insert, lookupAssoc]
    · rcases hr : lookupAssoc k rest with _ | v
      · simp [lookupAssoc, hk, lookup_insert, Ne.symm hk, hr]
      · simp [lookupAssoc, hk, hr]

theorem mem_keys_spread (b : AllowedActions) :
    ∀ (a : AllowedActions) (k : String),
      k ∈ keysOf (spreadAssoc a b) ↔ k ∈ keysOf a ∨ k ∈ keysOf b := by
  induction b with
  | nil =>
    intro a k
    simp [spreadAssoc, keysOf]
  | cons kv rest ih =>
    intro a k
    obtain ⟨k0, v0⟩ := kv
    have hstep : spreadAssoc a ((k0, v0) :: rest) =
        spreadAssoc (insertAssoc a k0 v0) rest := rfl
    have hc : keysOf ((k0, v0) :: rest) = k0 :: keysOf rest := rfl
    rw [hstep, ih, mem_keys_insert, hc, List.mem_cons]
    tauto

theorem nodup_keys_spread (b : AllowedActions) :
    ∀ a : AllowedActions, (keysOf a).Nodup →
      (keysOf (spreadAssoc a b)).Nodup := by
  induction b with
  | nil =>
    intro a h
    exact h
  | cons kv rest ih =>
    intro a h
    exact ih _ (nodup_keys_insert _ _ _ h)

theorem keys_spread_of_subset (b : AllowedActions) :
    ∀ a : AllowedActions, (∀ k ∈ keysOf b, k ∈ keysOf a) →
      keysOf (spreadAssoc a b) = keysOf a := by
  induction b with
  | nil =>
    intro a _
    rfl
  | cons kv rest ih =>
    intro a hsub
    obtain ⟨k0, v0⟩ := kv
    have h0 : k0 ∈ keysOf a := hsub k0 (List.mem_cons_self _ _)
    have hins : keysOf (insertAssoc a k0 v0) = keysOf a := by
      rw [keys_insert, if_pos h0]
    have hstep : spreadAssoc a ((k0, v0) :: rest) =
        spreadAssoc (insertAssoc a k0 v0) rest := rfl
    have hsub2 : ∀ k ∈ keysOf rest, k ∈ keysOf (insertAssoc a k0 v0) := by
      intro k hk
      rw [hins]
      exact hsub k (List.mem_cons_of_mem _ hk)
    rw [hstep, ih _ hsub2, hins]

theorem foldl_canName_eq_append (m : AllowedActions) :
    ∀ acc : AllowedActions,
      (∀ k ∈ keysOf m, canName k ∉ keysOf acc) →
      ((keysOf m).map canName).Nodup →
      m.foldl (fun acc1 kv => insertAssoc acc1 (canName kv.1) kv.2) acc =
        acc ++ m.map (fun kv => (canName kv.1, kv.2)) := by
  induction m with
  | nil =>
    intro acc _ _
    simp
  | cons kv rest ih =>
    intro acc hfresh hnd
    obtain ⟨k0, v0⟩ := kv
    have h0 : canName k0 ∉ keysOf acc := hfresh k0 (List.mem_cons_self _ _)
    have hins : insertAssoc acc (canName k0) v0 = acc ++ [(canName k0, v0)] :=
      insert_not_mem _ _ _ h0
    have hcons : (keysOf ((k0, v0) :: rest)).map canName =
        canName k0 :: (keysOf rest).map canName := rfl
    have hnd2 : ((keysOf rest).map canName).Nodup := by
      rw [hcons, List.nodup_cons] at hnd
      exact hnd.2
    have hhead : canName k0 ∉ (keysOf rest).map canName := by
      rw [hcons, List.nodup_cons] at hnd
      exact hnd.1
    have hfresh2 : ∀ k ∈ keysOf rest,
        canName k ∉ keysOf (acc ++ [(canName k0, v0)]) := by
      intro k hk
      have hk1 : canName k ∉ keysOf acc := hfresh k (List.mem_cons_of_mem _ hk)
      have hne : canName k ≠ canName k0 := by
        intro hc
        apply hhead
        rw [← hc]
        exact List.mem_map.mpr ⟨k, hk, rfl⟩
      intro hmem
      have happ : keysOf (acc ++ [(canName k0, v0)]) =
          keysOf acc ++ [canName k0] := by
        simp [keysOf]
      rw [happ, List.mem_append] at hmem
      rcases hmem with h | h
      · exact hk1 h
      · exact hne (List.mem_singleton.mp h)
    rw [show ((k0, v0) :: rest).foldl
          (fun acc1 kv => insertAssoc acc1 (canName kv.1) kv.2) acc =
        rest.foldl (fun acc1 kv => insertAssoc acc1 (canName kv.1) kv.2)
          (insertAssoc acc (canName k0) v0) from rfl]
    rw [hins, ih _ hfresh2 hnd2]
    simp

theorem canFold_eq_map (m : AllowedActions)
    (hnd : ((keysOf m).map canName).Nodup) :
    canFold m = m.map (fun kv => (canName kv.1, kv.2)) := by
  have h := foldl_canName_eq_append m []
    (by intro k _ hmem; cases hmem) hnd
  simpa [canFold] using h

theorem keys_map_canName (m : AllowedActions) :
    keysOf (m.map (fun kv => (canName kv.1, kv.2))) =
      (keysOf m).map canName := by
  simp [keysOf, List.map_map, Function.comp]

theorem lookup_map_canName (m : AllowedActions)
    (hfix : ∀ k1 ∈ keysOf m, capitalise k1 = k1) (k : String)
    (hk : capitalise k = k) :
    lookupAssoc (canName k) (m.map (fun kv => (canName kv.1, kv.2))) =
      lookupAssoc k m := by
  induction m with
  | nil => rfl
  | cons kv rest ih =>
    obtain ⟨k0, v0⟩ := kv
    have h0 : capitalise k0 = k0 := hfix k0 (List.mem_cons_self _ _)
    have hrest : ∀ k1 ∈ keysOf rest, capitalise k1 = k1 :=
      fun k1 h1 => hfix k1 (List.mem_cons_of_mem _ h1)
    by_cases hk0 : k0 = k
    · subst hk0
      simp [lookupAssoc]
    · have hne : ¬ canName k0 = canName k :=
        fun hc => hk0 (canName_inj h0 hk hc)
      rw [List.map_cons]
      rw [show lookupAssoc (canName k)
            ((canName k0, v0) :: rest.map (fun kv => (canName kv.1, kv.2))) =
          if canName k0 = canName k then some v0
          else lookupAssoc (canName k) (rest.map (fun kv => (canName kv.1, kv.2)))
          from rfl]
      rw [if_neg hne, ih hrest]
      rw [show lookupAssoc k ((k0, v0) :: rest) =
          if k0 = k then some v0 else lookupAssoc k rest from rfl, if_neg hk0]

theorem nodup_keys_dataOfResult (res : List Permission) :
    (keysOf (dataOfResult res)).Nodup := by
  unfold dataOfResult
  exact nodup_keys_foldl_insert _ _ _ [] (by simp [keysOf])

theorem capitalise_fixed_spread (perms res : List Permission) :
    ∀ k ∈ keysOf (spreadAssoc (defaultAllowedActions perms) (dataOfResult res)),
      capitalise k = k := by
  intro k hk
  rw [mem_keys_spread] at hk
  rcases hk with hk | hk
  · rw [mem_keys_default] at hk
    rcases List.mem_map.mp hk with ⟨p, _, rfl⟩
    exact capitalise_getActionName p
  · rw [mem_keys_dataOfResult] at hk
    rcases List.mem_map.mp hk with ⟨p, _, rfl⟩
    exact capitalise_getActionName p

theorem nodup_canName_keys_spread (perms res : List Permission) :
    ((keysOf (spreadAssoc (defaultAllowedActions perms)
      (dataOfResult res))).map canName).Nodup := by
  have hnd := nodup_keys_spread (dataOfResult res) (defaultAllowedActions perms)
    (nodup_keys_default perms)
  exact List.Nodup.map_on
    (fun x hx y hy hxy => canName_inj (capitalise_fixed_spread perms res x hx)
      (capitalise_fixed_spread perms res y hy) hxy) hnd

theorem lookup_allowedActions_data (perms res : List Permission) (p : Permission) :
    lookupAssoc (canKey p) (allowedActionsOf perms (some (dataOfResult res))) =
      if getActionName p ∈ res.map getActionName then some true
      else if getActionName p ∈ perms.map getActionName then some false
      else none := by
  have heq : allowedActionsOf perms (some (dataOfResult res)) =
      canFold (spreadAssoc (defaultAllowedActions perms) (dataOfResult res)) := rfl
  rw [heq, canFold_eq_map _ (nodup_canName_keys_spread perms res)]
  rw [show canKey p = canName (getActionName p) from rfl]
  rw [lookup_map_canName _ (capitalise_fixed_spread perms res) _
    (capitalise_getActionName p)]
  rw [lookup_spread _ _ _ (nodup_keys_dataOfResult res)]
  rw [lookup_dataOfResult, lookup_default]
  by_cases h1 : getActionName p ∈ res.map getActionName
  · rw [if_pos h1, if_pos h1]
  · rw [if_neg h1, if_neg h1]

theorem allowedActionsOf_none_eq (perms : List Permission) :
    allowedActionsOf perms none =
      allowedActionsOf perms (some (dataOfResult [])) := rfl

theorem keys_allowedActions_data (perms res : List Permission)
    (hres : ∀ k ∈ res.map getActionName, k ∈ perms.map getActionName) :
    keysOf (allowedActionsOf perms (some (dataOfResult res))) =
      (keysOf (defaultAllowedActions perms)).map canName := by
  have heq : allowedActionsOf perms (some (dataOfResult res)) =
      canFold (spreadAssoc (defaultAllowedActions perms) (dataOfResult res)) := rfl
  rw [heq, canFold_eq_map _ (nodup_canName_keys_spread perms res), keys_map_canName]
  congr 1
  apply keys_spread_of_subset
  intro k hk
  rw [mem_keys_dataOfResult] at hk
  rw [mem_keys_default]
  exact hres k hk

theorem val_foldl_canName (m : AllowedActions) (b : Bool) :
    ∀ acc : AllowedActions, (∀ kv ∈ m, kv.2 = b) → (∀ kv ∈ acc, kv.2 = b) →
      ∀ kv ∈ m.foldl (fun acc1 kv => insertAssoc acc1 (canName kv.1) kv.2) acc,
        kv.2 = b := by
  induction m with
  | nil =>
    intro acc _ hacc kv hkv
    exact hacc kv hkv
  | cons kv0 rest ih =>
    intro acc hm hacc kv hkv
    obtain ⟨k0, v0⟩ := kv0
    have hv0 : v0 = b := hm (k0, v0) (List.mem_cons_self _ _)
    have hm2 : ∀ kv1 ∈ rest, kv1.2 = b :=
      fun kv1 h => hm kv1 (List.mem_cons_of_mem _ h)
    have hacc2 : ∀ kv1 ∈ insertAssoc acc (canName k0) v0, kv1.2 = b := by
      intro kv1 h1
      rcases mem_val_insert _ _ _ _ h1 with h2 | h2
      · rw [h2, hv0]
      · exact hacc kv1 h2
    exact ih _ hm2 hacc2 kv hkv

theorem val_allowedActions_none (perms : List Permission) :
    ∀ kv ∈ allowedActionsOf perms none, kv.2 = false := by
  intro kv hkv
  have heq : allowedActionsOf perms none =
      canFold (defaultAllowedActions perms) := rfl
  rw [heq] at hkv
  exact val_foldl_canName _ false []
    (fun kv1 h1 => mem_val_default perms kv1 h1)
    (by intro kv1 h1; cases h1) kv hkv

theorem traceWarnings_single_aux (inst : Nat) (events : List (Nat × PermissionsInput)) :
    ∀ s : WarnState, (∀ e ∈ events, e.1 = inst) →
      traceWarnings s events ≤ if inst ∈ s.fired then 0 else 1 := by
  induction events with
  | nil =>
    intro s _
    have h0 : traceWarnings s [] = 0 := rfl
    rw [h0]
    exact Nat.zero_le _
  | cons e rest ih =>
    intro s hall
    obtain ⟨i, input⟩ := e
    have hi : i = inst := hall (i, input) (List.mem_cons_self _ _)
    subst hi
    have hrest : ∀ e ∈ rest, e.1 = i :=
      fun e he => hall e (List.mem_cons_of_mem _ he)
    cases input with
    | arr ps =>
      have h0 : traceWarnings s ((i, .arr ps) :: rest) = traceWarnings s rest := by
        simp [traceWarnings, renderWarnCount]
      rw [h0]
      exact ih s hrest
    | obj groups =>
      by_cases hf : i ∈ s.fired
      · have h0 : traceWarnings s ((i, .obj groups) :: rest) =
            traceWarnings s rest := by
          simp [traceWarnings, renderWarnCount, hf]
        rw [h0]
        exact ih s hrest
      · have h0 : traceWarnings s ((i, .obj groups) :: rest) =
            1 + traceWarnings ⟨i :: s.fired⟩ rest := by
          simp [traceWarnings, renderWarnCount, hf]
        have h2 := ih ⟨i :: s.fired⟩ hrest
        rw [if_pos (List.mem_cons_self _ _)] at h2
        rw [h0, if_neg hf]
        omega

/-- Claim C1, as stated, is refuted at a concrete input: with input permission
list [a.b] and an external check that resolves with [a.c] (not a subset of the
input), the returned allowedActions gains the extra key canC, so its key set
is not derived solely from the input permission list and has more than one
entry per distinct derived action name of the input. -/
theorem claim_C1_counterexample :
    keysOf (allowedActionsOf [⟨"a.b"⟩] (some (dataOfResult [⟨"a.c"⟩]))) =
      ["canB", "canC"] ∧
    keysOf (allowedActionsOf [⟨"a.b"⟩] none) = ["canB"] ∧
    "canC" ∉ ([⟨"a.b"⟩] : List Permission).map canKey ∧
    keysOf (allowedActionsOf [⟨"a.b"⟩] (some (dataOfResult [⟨"a.c"⟩]))) ≠
      keysOf (allowedActionsOf [⟨"a.b"⟩] none) := by
  decide

/-- Claim C1 (amended): whenever every permission the external check resolves
with has its derived action name among the input's derived action names (in
particular for any granted subset of the input, the check's contract), the key
set of the returned allowedActions is derived solely from the input permission
list: its keys are exactly the can-prefixed derived action names of the input,
without duplicates (one entry per distinct derived action name, never more,
never fewer); the same holds before any result arrives. -/
theorem claim_C1_amended (perms res : List Permission)
    (hres : ∀ p ∈ res, getActionName p ∈ perms.map getActionName) :
    (keysOf (allowedActionsOf perms (some (dataOfResult res)))).Nodup ∧
    (∀ k, k ∈ keysOf (allowedActionsOf perms (some (dataOfResult res))) ↔
      ∃ p ∈ perms, k = canKey p) ∧
    (keysOf (allowedActionsOf perms none)).Nodup ∧
    (∀ k, k ∈ keysOf (allowedActionsOf perms none) ↔
      ∃ p ∈ perms, k = canKey p) := by
  have hres2 : ∀ k ∈ res.map getActionName, k ∈ perms.map getActionName := by
    intro k hk
    rcases List.mem_map.mp hk with ⟨p, hp, rfl⟩
    exact hres p hp
  have hres0 : ∀ k ∈ ([] : List Permission).map getActionName,
      k ∈ perms.map getActionName := by
    intro k hk
    cases hk
  have hkeys := keys_allowedActions_data perms res hres2
  have hkeys0 := keys_allowedActions_data perms [] hres0
  have hnd : ((keysOf (defaultAllowedActions perms)).map canName).Nodup :=
    List.Nodup.map_on
      (fun x hx y hy hxy =>
        canName_inj
          (by rcases List.mem_map.mp ((mem_keys_default perms x).mp hx)
                with ⟨p, _, rfl⟩
              exact capitalise_getActionName p)
          (by rcases List.mem_map.mp ((mem_keys_default perms y).mp hy)
                with ⟨p, _, rfl⟩
              exact capitalise_getActionName p) hxy)
      (nodup_keys_default perms)
  have hmem : ∀ k, k ∈ (keysOf (defaultAllowedActions perms)).map canName ↔
      ∃ p ∈ perms, k = canKey p := by
    intro k
    constructor
    · intro hk
      rcases List.mem_map.mp hk with ⟨k0, hk0, rfl⟩
      rcases List.mem_map.mp ((mem_keys_default perms k0).mp hk0)
        with ⟨p, hp, rfl⟩
      exact ⟨p, hp, rfl⟩
    · rintro ⟨p, hp, rfl⟩
      exact List.mem_map.mpr ⟨getActionName p,
        (mem_keys_default perms _).mpr (List.mem_map.mpr ⟨p, hp, rfl⟩), rfl⟩
  refine ⟨?_, ?_, ?_, ?_⟩
  · rw [hkeys]
    exact hnd
  · intro k
    rw [hkeys]
    exact hmem k
  · rw [allowedActionsOf_none_eq, hkeys0]
    exact hnd
  · intro k
    rw [allowedActionsOf_none_eq, hkeys0]
    exact hmem k

/-- Witness for the amended claim C1 at input [a.b] with the check resolving
with the full granted subset [a.b]. -/
theorem claim_C1_amended_witness :
    (keysOf (allowedActionsOf [⟨"a.b"⟩] (some (dataOfResult [⟨"a.b"⟩])))).Nodup ∧
    (∀ k, k ∈ keysOf (allowedActionsOf [⟨"a.b"⟩]
        (some (dataOfResult [⟨"a.b"⟩]))) ↔
      ∃ p ∈ ([⟨"a.b"⟩] : List Permission), k = canKey p) ∧
    (keysOf (allowedActionsOf [⟨"a.b"⟩] none)).Nodup ∧
    (∀ k, k ∈ keysOf (allowedActionsOf [⟨"a.b"⟩] none) ↔
      ∃ p ∈ ([⟨"a.b"⟩] : List Permission), k = canKey p) :=
  claim_C1_amended [⟨"a.b"⟩] [⟨"a.b"⟩] (by decide)

/-- Claim C2: the derived action name is computed by splitting the action
string on dots, taking the last segment, splitting it on hyphens,
capitalising each part and concatenating; action admin::roles.create yields
output key canCreate and admin::roles.create-draft yields canCreateDraft. -/
theorem claim_C2 :
    (∀ p : Permission, getActionName p = derivedActionNameSpec p) ∧
    getActionName ⟨"admin::roles.create"⟩ = "Create" ∧
    getActionName ⟨"admin::roles.create-draft"⟩ = "CreateDraft" ∧
    keysOf (allowedActionsOf [⟨"admin::roles.create"⟩] none) = ["canCreate"] ∧
    keysOf (allowedActionsOf [⟨"admin::roles.create-draft"⟩] none) =
      ["canCreateDraft"] :=
  ⟨fun _ => rfl, by decide, by decide, by decide, by decide⟩

/-- Claim C3, as stated, is refuted at a concrete input: the action string foo
contains no dot, yet the derived action name is Foo, not the empty string
(a JS split with no separator occurrence returns the whole string as the
single segment). -/
theorem claim_C3_counterexample :
    ('.' ∉ "foo".data) ∧
    getActionName ⟨"foo"⟩ = "Foo" ∧
    getActionName ⟨"foo"⟩ ≠ "" := by
  decide

/-- Claim C3 (amended): for a permission whose action string contains no dot,
the derived action name is the camel-casing of the whole action string (split
on hyphens, each part capitalised, concatenated) — still produced silently,
without failing, but empty only when all hyphen-separated parts are empty
(e.g. the empty action string), not in general. -/
theorem claim_C3_amended (s : String) (h : '.' ∉ s.data) :
    getActionName ⟨s⟩ =
      ⟨((splitOnChar s.data '-').map capitaliseChars).flatten⟩ := by
  have hsplit : splitOnChar s.data '.' = [s.data] :=
    splitOnChar_not_mem s.data '.' h
  show (⟨((splitOnChar (((splitOnChar s.data '.').getLast?).getD []) '-').map
    capitaliseChars).flatten⟩ : String) = _
  rw [hsplit]
  rfl

/-- Witness for the amended claim C3 at the dot-free action string foo. -/
theorem claim_C3_amended_witness :
    ('.' ∉ "foo".data) ∧
    getActionName ⟨"foo"⟩ =
      ⟨((splitOnChar "foo".data '-').map capitaliseChars).flatten⟩ :=
  ⟨by decide, claim_C3_amended "foo" (by decide)⟩

/-- Claim C4, as stated, is refuted at a concrete trace: each hook instance
memoizes its own once-wrapped console.warn (React.useMemo with an empty
dependency list is per component instance), so two different call sites that
both use the deprecated object form each emit the warning: two warnings in one
process lifetime, not at most one ever. -/
theorem claim_C4_counterexample :
    traceWarnings ⟨[]⟩
      [(0, .obj [("group", [⟨"a.b"⟩])]), (1, .obj [("group", [⟨"a.b"⟩])])] =
      2 := by
  decide

/-- Claim C4 (amended): within a single hook instance, the deprecation warning
for the object input form is emitted at most once across any number of calls,
regardless of how many of them use the deprecated form. -/
theorem claim_C4_amended (inst : Nat) (events : List (Nat × PermissionsInput))
    (h : ∀ e ∈ events, e.1 = inst) (s : WarnState) :
    traceWarnings s events ≤ 1 := by
  have h2 := traceWarnings_single_aux inst events s h
  by_cases hf : inst ∈ s.fired
  · rw [if_pos hf] at h2
    omega
  · rw [if_neg hf] at h2
    omega

/-- Witness for the amended claim C4: one hook instance using the deprecated
form twice emits at most one warning. -/
theorem claim_C4_amended_witness :
    traceWarnings ⟨[]⟩
      [(0, .obj [("group", [⟨"a.b"⟩])]), (0, .obj [("group", [⟨"a.b"⟩])])] ≤
      1 :=
  claim_C4_amended 0
    [(0, .obj [("group", [⟨"a.b"⟩])]), (0, .obj [("group", [⟨"a.b"⟩])])]
    (by decide) ⟨[]⟩

/-- Claim C5: for every input, when the external check's promise rejects with
e, the stored error equals e, the loading flag is cleared (so the reported
isLoading is false once the external auth loading flag is down), and
allowedActions is the all-false default map keyed by the input's derived
action names — no result from the failed check is held. -/
theorem claim_C5 (input : PermissionsInput) (e : String) (s0 : HookState) :
    (rejectCheck (triggerCheck s0) e).error = some e ∧
    (rejectCheck (triggerCheck s0) e).isLoading = false ∧
    (rejectCheck (triggerCheck s0) e).data = none ∧
    (useRBACResult input false (rejectCheck (triggerCheck s0) e)).error =
      some e ∧
    (useRBACResult input false (rejectCheck (triggerCheck s0) e)).isLoading =
      false ∧
    (useRBACResult input false (rejectCheck (triggerCheck s0) e)).allowedActions =
      allowedActionsOf (actualPermissionsToCheck input) none ∧
    (∀ kv ∈ (useRBACResult input false
        (rejectCheck (triggerCheck s0) e)).allowedActions, kv.2 = false) :=
  ⟨rfl, rfl, rfl, rfl, rfl, rfl,
    val_allowedActions_none (actualPermissionsToCheck input)⟩

/-- Claim C6: for every input, after the external check resolves with a
granted subset of the input permissions, exactly the derived actions of the
granted permissions carry flag true in allowedActions, and every other
requested action's flag is false. -/
theorem claim_C6 (input : PermissionsInput) (granted : List Permission)
    (hsub : ∀ p ∈ granted, p ∈ actualPermissionsToCheck input)
    (auth : Bool) (s0 : HookState) :
    (∀ p ∈ granted,
      lookupAssoc (canKey p)
        (useRBACResult input auth
          (resolveCheck (triggerCheck s0) (some granted))).allowedActions =
        some true) ∧
    (∀ p ∈ actualPermissionsToCheck input,
      getActionName p ∉ granted.map getActionName →
      lookupAssoc (canKey p)
        (useRBACResult input auth
          (resolveCheck (triggerCheck s0) (some granted))).allowedActions =
        some false) := by
  have heq : (useRBACResult input auth
      (resolveCheck (triggerCheck s0) (some granted))).allowedActions =
    allowedActionsOf (actualPermissionsToCheck input)
      (some (dataOfResult granted)) := rfl
  constructor
  · intro p hp
    rw [heq, lookup_allowedActions_data,
      if_pos (List.mem_map.mpr ⟨p, hp, rfl⟩)]
  · intro p hp hnot
    rw [heq, lookup_allowedActions_data, if_neg hnot,
      if_pos (List.mem_map.mpr ⟨p, hp, rfl⟩)]

/-- Witness for claim C6: input [a.b, a.c] with granted subset [a.b]: canB
reads true and canC reads false. -/
theorem claim_C6_witness :
    (∀ p ∈ ([⟨"a.b"⟩] : List Permission),
      lookupAssoc (canKey p)
        (useRBACResult (.arr [⟨"a.b"⟩, ⟨"a.c"⟩]) false
          (resolveCheck (triggerCheck initialState)
            (some [⟨"a.b"⟩]))).allowedActions = some true) ∧
    (∀ p ∈ actualPermissionsToCheck (.arr [⟨"a.b"⟩, ⟨"a.c"⟩]),
      getActionName p ∉ ([⟨"a.b"⟩] : List Permission).map getActionName →
      lookupAssoc (canKey p)
        (useRBACResult (.arr [⟨"a.b"⟩, ⟨"a.c"⟩]) false
          (resolveCheck (triggerCheck initialState)
            (some [⟨"a.b"⟩]))).allowedActions = some false) :=
  claim_C6 (.arr [⟨"a.b"⟩, ⟨"a.c"⟩]) [⟨"a.b"⟩] (by decide) false initialState

/-- Claim C7: the deprecated mapping form produces exactly the same hook
output (allowedActions, permissions, and the rest) as the single flattened
array whose order is the iteration order of the mapping's values. -/
theorem claim_C7 (groups : List (String × List Permission)) (auth : Bool)
    (s : HookState) :
    useRBACResult (.obj groups) auth s =
      useRBACResult (.arr ((groups.map Prod.snd).flatten)) auth s ∧
    actualPermissionsToCheck (.obj groups) = (groups.map Prod.snd).flatten :=
  ⟨rfl, rfl⟩

/-- Claim C8: from the start of a check until it completes the render-scoped
state is exactly the cleared state (a re-triggering input change resets to it),
every requested action's flag in allowedActions is false, and the reported
isLoading is true. -/
theorem claim_C8 (input : PermissionsInput) (auth : Bool) (s0 : HookState) :
    triggerCheck s0 = initialState ∧
    (useRBACResult input auth (triggerCheck s0)).isLoading = true ∧
    (∀ p ∈ actualPermissionsToCheck input,
      lookupAssoc (canKey p)
        (useRBACResult input auth (triggerCheck s0)).allowedActions =
        some false) := by
  refine ⟨rfl, rfl, ?_⟩
  intro p hp
  have heq : (useRBACResult input auth (triggerCheck s0)).allowedActions =
      allowedActionsOf (actualPermissionsToCheck input)
        (some (dataOfResult [])) := rfl
  rw [heq, lookup_allowedActions_data,
    if_neg (by intro hmem; cases hmem),
    if_pos (List.mem_map.mpr ⟨p, hp, rfl⟩)]

/-- Claim C9: the permissions field of the hook's return value is exactly the
normalized input permission list (the array as given, or the flattened mapping
values), for every state of the check — its result, rejection, or loading
state never filters or mutates it. -/
theorem claim_C9 (input : PermissionsInput) (auth : Bool) (s : HookState) :
    (useRBACResult input auth s).permissions = actualPermissionsToCheck input ∧
    (∀ ps : List Permission, actualPermissionsToCheck (.arr ps) = ps) ∧
    (∀ groups : List (String × List Permission),
      actualPermissionsToCheck (.obj groups) = (groups.map Prod.snd).flatten) :=
  ⟨rfl, fun _ => rfl, fun _ => rfl⟩

/-- Claim C10: getActionName is total — it returns a plain string for every
action string, and derived names are fixed points of capitalise, so the output
key is can followed by the derived name; for the empty action string the
derived name is empty and the resulting allowedActions key is exactly can. -/
theorem claim_C10 :
    (∀ p : Permission, canKey p = "can" ++ getActionName p) ∧
    getActionName ⟨""⟩ = "" ∧
    keysOf (allowedActionsOf [⟨""⟩] none) = ["can"] ∧
    lookupAssoc "can" (allowedActionsOf [⟨""⟩] none) = some false := by
  refine ⟨?_, by decide, by decide, by decide⟩
  intro p
  show canName (getActionName p) = _
  unfold canName
  rw [capitalise_getActionName]
